import Mathlib

/-!
Verification of the streaming SHA-256 hash engine declared in
`core-render-ohos/src/main/cpp/libohos_render/expand/modules/codec/sha256.h`.
The repository fragment contains only the header (declarations of
`SHA256_init`, `SHA256_update`, `SHA256_final`, `SHA256_hash`); every
implementation body below is therefore modelled from the specification
document.  Bytes are `Nat`s, 32-bit machine words are `Nat`s reduced
modulo `2 ^ 32` explicitly wherever the algorithm requires wraparound.
-/

/-- The modulus `2 ^ 32` of all 32-bit word arithmetic. -/
def w32 : Nat := 4294967296

/-- Right rotation of a 32-bit word by `n` bits (operand masked to 32 bits). -/
def rotr (n x : Nat) : Nat :=
  ((x % w32) >>> n) ||| (((x % w32) <<< (32 - n)) % w32)

/-- The SHA-256 `Ch` function. -/
def ch (x y z : Nat) : Nat :=
  ((x % w32) &&& (y % w32)) ^^^ (((x % w32) ^^^ 4294967295) &&& (z % w32))

/-- The SHA-256 `Maj` function. -/
def maj (x y z : Nat) : Nat :=
  ((x % w32) &&& (y % w32)) ^^^ ((x % w32) &&& (z % w32)) ^^^ ((y % w32) &&& (z % w32))

/-- The SHA-256 big sigma-0 function. -/
def bigS0 (x : Nat) : Nat := rotr 2 x ^^^ rotr 13 x ^^^ rotr 22 x

/-- The SHA-256 big sigma-1 function. -/
def bigS1 (x : Nat) : Nat := rotr 6 x ^^^ rotr 11 x ^^^ rotr 25 x

/-- The SHA-256 small sigma-0 function. -/
def smallS0 (x : Nat) : Nat := rotr 7 x ^^^ rotr 18 x ^^^ ((x % w32) >>> 3)

/-- The SHA-256 small sigma-1 function. -/
def smallS1 (x : Nat) : Nat := rotr 17 x ^^^ rotr 19 x ^^^ ((x % w32) >>> 10)

/-- The 64 SHA-256 round constants. -/
def Ksha : List Nat :=
  [1116352408, 1899447441, 3049323471, 3921009573, 961987163,
   1508970993, 2453635748, 2870763221, 3624381080, 310598401,
   607225278, 1426881987, 1925078388, 2162078206, 2614888103,
   3248222580, 3835390401, 4022224774, 264347078, 604807628,
   770255983, 1249150122, 1555081692, 1996064986, 2554220882,
   2821834349, 2952996808, 3210313671, 3336571891, 3584528711,
   113926993, 338241895, 666307205, 773529912, 1294757372,
   1396182291, 1695183700, 1986661051, 2177026350, 2456956037,
   2730485921, 2820302411, 3259730800, 3345764771, 3516065817,
   3600352804, 4094571909, 275423344, 430227734, 506948616,
   659060556, 883997877, 958139571, 1322822218, 1537002063,
   1747873779, 1955562222, 2024104815, 2227730452, 2361852424,
   2428436474, 2756734187, 3204031479, 3329325298]

/-- The eight SHA-256 initial state words. -/
def shaH0 : List Nat :=
  [1779033703, 3144134277, 1013904242, 2773480762,
   1359893119, 2600822924, 528734635, 1541459225]

/-- Parse a byte list as big-endian 32-bit words, four bytes per word. -/
def toBeWords : List Nat → List Nat
  | b0 :: b1 :: b2 :: b3 :: rest =>
      (b0 * 16777216 + b1 * 65536 + b2 * 256 + b3) % w32 :: toBeWords rest
  | _ => []

/-- One message-schedule extension step on the reversed word list
(head is the most recent word). -/
def extendW (r : List Nat) : List Nat :=
  ((smallS1 (r.getD 1 0) + r.getD 6 0 + smallS0 (r.getD 14 0) + r.getD 15 0) % w32) :: r

/-- Apply `extendW` `n` times. -/
def scheduleRev : Nat → List Nat → List Nat
  | 0, r => r
  | n + 1, r => scheduleRev n (extendW r)

/-- The 64-word message schedule of a 64-byte block: the 16 parsed
big-endian words extended 48 times by the sigma recurrence. -/
def messageSchedule (block : List Nat) : List Nat :=
  (scheduleRev 48 (toBeWords block).reverse).reverse

/-- One SHA-256 compression round: combine the eight working variables
with one schedule word and one round constant, rotating the variables.
All additions are modulo `2 ^ 32`. -/
def roundStep (v : List Nat) (wk : Nat × Nat) : List Nat :=
  let a := v.getD 0 0
  let b := v.getD 1 0
  let c := v.getD 2 0
  let d := v.getD 3 0
  let e := v.getD 4 0
  let f := v.getD 5 0
  let g := v.getD 6 0
  let h := v.getD 7 0
  let t1 := (h + bigS1 e + ch e f g + wk.2 + wk.1) % w32
  let t2 := (bigS0 a + maj a b c) % w32
  [(t1 + t2) % w32, a, b, c, (d + t1) % w32, e, f, g]

/-- Modelled from the spec: the pure SHA-256 block compressor
(`compress(state_words[8], block[64 bytes]) -> new_state_words[8]`), whose
implementation body is absent from the repository fragment.  Parses the
block as 16 big-endian words, expands the 64-word message schedule, runs
the 64 rounds, and adds the original state words modulo `2 ^ 32`. -/
def compress256 (h block : List Nat) : List Nat :=
  let v := ((messageSchedule block).zip Ksha).foldl roundStep h
  (h.zip v).map fun p => (p.1 + p.2) % w32

/-- The hash context of `sha256.h` (`SHA256_CTX`, i.e. the generic
`HASH_CTX`): the eight running digest words, the partial-block buffer,
and the total number of bytes fed so far. -/
structure HASH_CTX where
  h : List Nat
  buffer : List Nat
  totalLen : Nat
deriving DecidableEq, Repr

/-- Fuel-indexed block consumer: while at least 64 bytes remain,
compress the leading 64-byte block into the running state; return the
new state together with the remaining (`< 64` byte) tail.  The fuel is
always instantiated with the list length, which bounds the number of
blocks. -/
def shaGo : Nat → List Nat → List Nat → List Nat × List Nat
  | 0, h, l => (h, l)
  | n + 1, h, l =>
      if 64 ≤ l.length then shaGo n (compress256 h (l.take 64)) (l.drop 64)
      else (h, l)

/-- Consume all complete 64-byte blocks of `l` into the state `h`. -/
def sha_process (h l : List Nat) : List Nat × List Nat :=
  shaGo l.length h l

/-- Modelled from the spec: `SHA256_init` (body absent from the
repository fragment) returns a fresh context holding the eight SHA-256
initial constants, an empty buffer and zero total length; it has no
failure mode (a total Lean function). -/
def SHA256_init : HASH_CTX := ⟨shaH0, [], 0⟩

/-- Modelled from the spec: `SHA256_update` (body absent from the
repository fragment).  The pending buffer is filled from the new data
and every completed 64-byte block is compressed into the running state;
the leftover tail (`< 64` bytes) becomes the new buffer, and the total
length advances by the length of the data. -/
def SHA256_update (s : HASH_CTX) (d : List Nat) : HASH_CTX :=
  let p := sha_process s.h (s.buffer ++ d)
  ⟨p.1, p.2, s.totalLen + d.length⟩

/-- The 8-byte big-endian encoding of the 64-bit value `n` (the bit
count stored in the final padding). -/
def lenBytes (n : Nat) : List Nat :=
  [(n >>> 56) % 256, (n >>> 48) % 256, (n >>> 40) % 256, (n >>> 32) % 256,
   (n >>> 24) % 256, (n >>> 16) % 256, (n >>> 8) % 256, n % 256]

/-- The 4-byte big-endian serialization of a 32-bit word, most
significant byte first. -/
def be32 (w : Nat) : List Nat :=
  [(w >>> 24) % 256, (w >>> 16) % 256, (w >>> 8) % 256, w % 256]

/-- Serialize a list of 32-bit words as big-endian bytes, in order. -/
def serializeWords : List Nat → List Nat
  | [] => []
  | w :: ws => be32 w ++ serializeWords ws

/-- The first padding phase of finalization: append the `0x80` marker
byte; if the buffer then exceeds 56 bytes, zero-pad it to 64 bytes,
compress it, and restart from an empty buffer.  Returns the (possibly
advanced) state words and the pending buffer (`≤ 56` bytes). -/
def finalFirst (s : HASH_CTX) : List Nat × List Nat :=
  let b1 := s.buffer ++ [128]
  if 56 < b1.length then (compress256 s.h (b1 ++ List.replicate (64 - b1.length) 0), [])
  else (s.h, b1)

/-- The last 64-byte block of finalization: the pending buffer
zero-padded to 56 bytes followed by the 8-byte big-endian bit count
`totalLen * 8`. -/
def finalBlock (s : HASH_CTX) : List Nat :=
  (finalFirst s).2 ++ List.replicate (56 - (finalFirst s).2.length) 0 ++ lenBytes (s.totalLen * 8)

/-- The eight state words after both finalization compressions. -/
def finalWords (s : HASH_CTX) : List Nat :=
  compress256 (finalFirst s).1 (finalBlock s)

/-- Modelled from the spec: `SHA256_final` (body absent from the
repository fragment).  Appends `0x80`, zero-pads (compressing an extra
block when the `0x80` byte does not fit before the length field),
appends the big-endian bit count, compresses the last block, and
serializes the eight state words big-endian, in order. -/
def SHA256_final (s : HASH_CTX) : List Nat :=
  serializeWords (finalWords s)

/-- Modelled from the spec: the one-shot convenience `SHA256_hash`,
the composition of init, one update and final. -/
def SHA256_hash (d : List Nat) : List Nat :=
  SHA256_final (SHA256_update SHA256_init d)
/-- Modelled from the spec: the lifecycle phase of a hash context
(`Fresh/Accumulating` collapse to `accumulating`; `finalized` is the
terminal phase entered by `SHA256_final`).  The repository fragment
holds no implementation body, and the spec leaves the
update-after-finalize policy open between rejecting with a misuse error
and a cached no-op; the model adopts the reject policy. -/
inductive HashStatus where
  | accumulating
  | finalized
deriving DecidableEq, Repr

/-- Modelled from the spec: the error taxonomy — the state-misuse error
for operations on a finalized context and the capacity error for total
input beyond the `2 ^ 61`-byte bit-length encoding capacity. -/
inductive HashErr where
  | misuse
  | capacity
deriving DecidableEq, Repr

/-- A hash context together with its lifecycle phase. -/
structure HashCtxL where
  st : HASH_CTX
  status : HashStatus
deriving DecidableEq, Repr

/-- Modelled from the spec: the checked update operation.  It rejects a
finalized context with the misuse error, rejects data that would push
the total length beyond `2 ^ 61` bytes with the capacity error, and
otherwise performs `SHA256_update`, staying in the accumulating phase. -/
def SHA256_updateChecked (c : HashCtxL) (d : List Nat) : Except HashErr HashCtxL :=
  match c.status with
  | .finalized => .error .misuse
  | .accumulating =>
      if 2 ^ 61 < c.st.totalLen + d.length then .error .capacity
      else .ok ⟨SHA256_update c.st d, .accumulating⟩

/-- Modelled from the spec: the checked finalization.  It rejects a
finalized context with the misuse error and otherwise produces the
digest, moving the context to the terminal finalized phase. -/
def SHA256_finalChecked (c : HashCtxL) : Except HashErr (HashCtxL × List Nat) :=
  match c.status with
  | .finalized => .error .misuse
  | .accumulating => .ok (⟨c.st, .finalized⟩, SHA256_final c.st)
/-- The big-endian 32-bit word starting at byte offset `4 * i` of a
block, most significant byte first. -/
def beWordAt (block : List Nat) (i : Nat) : Nat :=
  (block.getD (4 * i) 0 * 16777216 + block.getD (4 * i + 1) 0 * 65536 +
    block.getD (4 * i + 2) 0 * 256 + block.getD (4 * i + 3) 0) % w32

/-- The message-schedule word `w[i]` written exactly as the spec states
it: for `i < 16` the `i`-th big-endian word of the block, and for
`16 ≤ i` the recurrence
`(σ1 w[i-2] + w[i-7] + σ0 w[i-15] + w[i-16]) mod 2 ^ 32`. -/
def wSpec (block : List Nat) (i : Nat) : Nat :=
  if _h : i < 16 then beWordAt block i
  else (smallS1 (wSpec block (i - 2)) + wSpec block (i - 7) +
        smallS0 (wSpec block (i - 15)) + wSpec block (i - 16)) % w32
termination_by i
decreasing_by
  all_goals omega

/-- The eight working variables after `n` of the 64 rounds, each round
consuming the schedule word `w[n]` and the round constant `k[n]`. -/
def roundsSpec (h block : List Nat) : Nat → List Nat
  | 0 => h
  | n + 1 => roundStep (roundsSpec h block n) (wSpec block n, Ksha.getD n 0)

/-- The block compressor written directly from the spec's five steps:
parse big-endian words, expand by the recurrence (`wSpec`), run the 64
rounds (`roundsSpec`), and add the original state words modulo
`2 ^ 32`. -/
def compressSpec (h block : List Nat) : List Nat :=
  (h.zip (roundsSpec h block 64)).map fun p => (p.1 + p.2) % w32
/-- The reversed word list `r` agrees with the schedule words
`w[0], …, w[m-1]`, most recent first. -/
def RevSched (block : List Nat) (m : Nat) (r : List Nat) : Prop :=
  r.length = m ∧ ∀ i < m, r.getD (m - 1 - i) 0 = wSpec block i

/-- Too little data for a block: the consumer returns the state and the
data unchanged, whatever the fuel. -/
theorem shaGo_short (n : Nat) (h l : List Nat) (hl : l.length < 64) :
    shaGo n h l = (h, l) := by
  cases n with
  | zero => rfl
  | succ n => simp [shaGo, Nat.not_le.mpr hl]

/-- The fuel does not matter once it bounds the length of the data. -/
theorem shaGo_congr (n : Nat) : ∀ m h l, l.length ≤ n → l.length ≤ m →
    shaGo n h l = shaGo m h l := by
  induction n with
  | zero =>
      intro m h l hn _
      have : l = [] := List.eq_nil_of_length_eq_zero (Nat.le_zero.mp hn)
      subst this
      rw [shaGo_short _ h [] (by simp), shaGo_short _ h [] (by simp)]
  | succ n ih =>
      intro m h l hn hm
      by_cases h64 : 64 ≤ l.length
      · cases m with
        | zero => omega
        | succ m =>
            simp only [shaGo, if_pos h64]
            exact ih m _ _ (by simp; omega) (by simp; omega)
      · rw [shaGo_short _ _ _ (by omega), shaGo_short _ _ _ (by omega)]

/-- Unfolding `sha_process` on short input. -/
theorem sha_process_short (h l : List Nat) (hl : l.length < 64) :
    sha_process h l = (h, l) :=
  shaGo_short _ _ _ hl

/-- Unfolding `sha_process` on input holding at least one block. -/
theorem sha_process_step (h l : List Nat) (hl : 64 ≤ l.length) :
    sha_process h l = sha_process (compress256 h (l.take 64)) (l.drop 64) := by
  unfold sha_process
  obtain ⟨n, hn⟩ : ∃ n, l.length = n + 1 := ⟨l.length - 1, by omega⟩
  rw [hn]
  simp only [shaGo, if_pos hl]
  exact shaGo_congr n _ _ _ (by simp; omega) (by simp)
/-- Auxiliary induction for `sha_process_append`, on a bound of the
length of the first list. -/
theorem sha_process_append_aux (n : Nat) : ∀ l : List Nat, l.length ≤ n → ∀ h b,
    sha_process h (l ++ b) = sha_process (sha_process h l).1 ((sha_process h l).2 ++ b) := by
  induction n with
  | zero =>
      intro l hl h b
      have : l = [] := List.eq_nil_of_length_eq_zero (Nat.le_zero.mp hl)
      subst this
      rw [sha_process_short h [] (by simp)]
  | succ n ih =>
      intro l hl h b
      by_cases h64 : 64 ≤ l.length
      · rw [sha_process_step h (l ++ b) (by simp; omega),
          List.take_append_of_le_length h64, List.drop_append_of_le_length h64,
          ih (l.drop 64) (by simp; omega), sha_process_step h l h64]
      · rw [sha_process_short h l (by omega)]

/-- Block processing is compatible with appending further data: the
blocks of `l` are consumed first, and the tail of `l` is prepended to
the new data. -/
theorem sha_process_append (l : List Nat) (h b : List Nat) :
    sha_process h (l ++ b) = sha_process (sha_process h l).1 ((sha_process h l).2 ++ b) :=
  sha_process_append_aux l.length l (Nat.le_refl _) h b

/-- Two consecutive updates are one update with the concatenated data. -/
theorem SHA256_update_append (s : HASH_CTX) (a b : List Nat) :
    SHA256_update (SHA256_update s a) b = SHA256_update s (a ++ b) := by
  simp only [SHA256_update]
  rw [← sha_process_append (s.buffer ++ a) s.h b]
  simp [List.append_assoc, Nat.add_assoc]

/-- An empty update on a fresh context is the identity. -/
theorem SHA256_update_init_nil : SHA256_update SHA256_init [] = SHA256_init := by decide

/-- Folding updates over a list of chunks is one update with the
flattened data. -/
theorem foldl_update_flatten (ds : List (List Nat)) : ∀ (s : HASH_CTX) (a : List Nat),
    List.foldl SHA256_update (SHA256_update s a) ds = SHA256_update s (a ++ ds.flatten) := by
  induction ds with
  | nil => intro s a; simp
  | cons d ds ih =>
      intro s a
      simp only [List.foldl_cons, List.flatten_cons]
      rw [SHA256_update_append, ih, List.append_assoc]
/-- The remaining tail after block consumption is shorter than a block. -/
theorem shaGo_snd_short (n : Nat) : ∀ h l, l.length ≤ n → ((shaGo n h l).2).length < 64 := by
  induction n with
  | zero =>
      intro h l hl
      have : l = [] := List.eq_nil_of_length_eq_zero (Nat.le_zero.mp hl)
      subst this
      simp [shaGo]
  | succ n ih =>
      intro h l hl
      by_cases h64 : 64 ≤ l.length
      · simp only [shaGo, if_pos h64]
        exact ih _ _ (by simp; omega)
      · rw [shaGo_short _ _ _ (by omega)]
        show l.length < 64
        omega

/-- After any update, the pending buffer holds fewer than 64 bytes. -/
theorem update_buffer_short (s : HASH_CTX) (d : List Nat) :
    ((SHA256_update s d).buffer).length < 64 :=
  shaGo_snd_short _ _ _ (Nat.le_refl _)

/-- The pending buffer kept by the first finalization phase never
exceeds the 56 bytes that precede the length field. -/
theorem finalFirst_snd_le (s : HASH_CTX) : ((finalFirst s).2).length ≤ 56 := by
  unfold finalFirst
  by_cases h : 56 < (s.buffer ++ [128]).length
  · rw [if_pos h]
    simp
  · rw [if_neg h]
    simp only [Nat.not_lt] at h
    simpa using h

/-- Dropping the length of the left list of an append yields the right list. -/
theorem drop_append_of_length (l₁ l₂ : List Nat) (n : Nat) (h : l₁.length = n) :
    (l₁ ++ l₂).drop n = l₂ := by
  subst h
  exact List.drop_left _ _

/-- The final padded block ends with the 8-byte big-endian bit count
of the total length. -/
theorem finalBlock_drop (s : HASH_CTX) :
    (finalBlock s).drop 56 = lenBytes (s.totalLen * 8) := by
  unfold finalBlock
  exact drop_append_of_length _ _ _
    (by have h56 := finalFirst_snd_le s; simp; omega)

/-- C1: Chunking invariance: feeding any splitting of a byte sequence
`d` chunk by chunk to a fresh context and finalizing yields the same
digest as the one-shot `SHA256_hash d`. -/
theorem sha256_chunking_invariance (ds : List (List Nat)) :
    SHA256_final (List.foldl SHA256_update SHA256_init ds) = SHA256_hash ds.flatten := by
  cases ds with
  | nil =>
      show SHA256_final SHA256_init = SHA256_final (SHA256_update SHA256_init [])
      rw [SHA256_update_init_nil]
  | cons d ds =>
      simp only [List.foldl_cons, List.flatten_cons]
      rw [foldl_update_flatten]
      rfl

set_option maxRecDepth 10000 in
/-- C2: Known test vectors: the digest of the empty input is
`e3b0c442…b855` and the digest of the ASCII bytes of `abc` is
`ba7816bf…15ad`. -/
theorem sha256_known_test_vectors :
    SHA256_hash [] =
      [0xe3, 0xb0, 0xc4, 0x42, 0x98, 0xfc, 0x1c, 0x14, 0x9a, 0xfb, 0xf4, 0xc8, 0x99, 0x6f, 0xb9, 0x24,
       0x27, 0xae, 0x41, 0xe4, 0x64, 0x9b, 0x93, 0x4c, 0xa4, 0x95, 0x99, 0x1b, 0x78, 0x52, 0xb8, 0x55] ∧
    SHA256_hash [0x61, 0x62, 0x63] =
      [0xba, 0x78, 0x16, 0xbf, 0x8f, 0x01, 0xcf, 0xea, 0x41, 0x41, 0x40, 0xde, 0x5d, 0xae, 0x22, 0x23,
       0xb0, 0x03, 0x61, 0xa3, 0x96, 0x17, 0x7a, 0x9c, 0xb4, 0x10, 0xff, 0x61, 0xf2, 0x00, 0x15, 0xad] := by
  decide

/-- C7: Between operations, the pending buffer of any context reachable
from a fresh context by updates holds between 0 and 63 bytes: a full
buffer is compressed at once and never survives an update. -/
theorem sha256_buffer_length_invariant (ds : List (List Nat)) :
    0 ≤ (List.foldl SHA256_update SHA256_init ds).buffer.length ∧
    (List.foldl SHA256_update SHA256_init ds).buffer.length < 64 := by
  refine ⟨Nat.zero_le _, ?_⟩
  cases ds with
  | nil => simp [SHA256_init]
  | cons d ds =>
      rw [List.foldl_cons, foldl_update_flatten]
      exact update_buffer_short _ _

/-- C8: Each update advances `totalLen` by exactly the length of its
data (hence `totalLen` is non-decreasing); after any update sequence
from a fresh context, `totalLen` is the sum of all chunk lengths; and
the final padded block ends with the big-endian bit count
`totalLen * 8`. -/
theorem sha256_total_length_invariant :
    (∀ (s : HASH_CTX) (d : List Nat), (SHA256_update s d).totalLen = s.totalLen + d.length) ∧
    (∀ ds : List (List Nat),
      (List.foldl SHA256_update SHA256_init ds).totalLen = (ds.map List.length).sum) ∧
    (∀ s : HASH_CTX, (finalBlock s).drop 56 = lenBytes (s.totalLen * 8)) := by
  refine ⟨fun s d => rfl, fun ds => ?_, fun s => finalBlock_drop s⟩
  cases ds with
  | nil => rfl
  | cons d ds =>
      rw [List.foldl_cons, foldl_update_flatten]
      simp [SHA256_update, SHA256_init, List.length_flatten]

/-- C9: A fresh context holds exactly the eight SHA-256 initial
constants, zero total length and an empty buffer (and `SHA256_init` is
a total function: it has no failure mode). -/
theorem sha256_init_spec :
    SHA256_init.h = [0x6a09e667, 0xbb67ae85, 0x3c6ef372, 0xa54ff53a,
      0x510e527f, 0x9b05688c, 0x1f83d9ab, 0x5be0cd19] ∧
    SHA256_init.totalLen = 0 ∧ SHA256_init.buffer = [] :=
  ⟨rfl, rfl, rfl⟩
/-- C4: Finalization appends `0x80`, zero-pads, appends the big-endian
bit count and compresses: when fewer than 56 bytes are pending the
compressor runs exactly once, on the buffer followed by `0x80`,
`55 - buffer_length` zeros and the bit count; when 56 or more bytes are
pending it runs exactly twice, first on the buffer followed by `0x80`
and `63 - buffer_length` zeros, then on 56 zeros followed by the bit
count. -/
theorem sha256_final_compression_structure (s : HASH_CTX) (hlt : s.buffer.length < 64) :
    (s.buffer.length < 56 →
      SHA256_final s = serializeWords (compress256 s.h
        (s.buffer ++ [128] ++ List.replicate (55 - s.buffer.length) 0 ++ lenBytes (s.totalLen * 8)))) ∧
    (56 ≤ s.buffer.length →
      SHA256_final s = serializeWords (compress256
        (compress256 s.h (s.buffer ++ [128] ++ List.replicate (63 - s.buffer.length) 0))
        (List.replicate 56 0 ++ lenBytes (s.totalLen * 8)))) := by
  unfold SHA256_final finalWords finalBlock finalFirst
  constructor
  · intro h56
    have hc : ¬ 56 < (s.buffer ++ [128]).length := by
      simp only [List.length_append, List.length_cons, List.length_nil]
      omega
    rw [if_neg hc]
    have hrep : 56 - (s.buffer ++ [128]).length = 55 - s.buffer.length := by
      simp only [List.length_append, List.length_cons, List.length_nil]
      omega
    rw [hrep]
  · intro h56
    have hc : 56 < (s.buffer ++ [128]).length := by
      simp only [List.length_append, List.length_cons, List.length_nil]
      omega
    rw [if_pos hc]
    have hrep : 64 - (s.buffer ++ [128]).length = 63 - s.buffer.length := by
      simp only [List.length_append, List.length_cons, List.length_nil]
      omega
    rw [hrep]
    simp

/-- Witness for C4 at the fresh context (empty buffer): a single
compression of the all-padding block. -/
theorem sha256_final_compression_structure_witness :
    SHA256_final SHA256_init = serializeWords (compress256 SHA256_init.h
      (SHA256_init.buffer ++ [128] ++ List.replicate (55 - SHA256_init.buffer.length) 0 ++
        lenBytes (SHA256_init.totalLen * 8))) :=
  (sha256_final_compression_structure SHA256_init (by decide)).1 (by decide)

/-- Each round keeps exactly eight working variables. -/
theorem roundStep_length (v : List Nat) (wk : Nat × Nat) : (roundStep v wk).length = 8 := rfl

/-- Folding rounds over any schedule keeps exactly eight variables. -/
theorem foldl_roundStep_length : ∀ (ps : List (Nat × Nat)) (h : List Nat), h.length = 8 →
    (List.foldl roundStep h ps).length = 8
  | [], _, hh => hh
  | p :: ps, h, _ => foldl_roundStep_length ps (roundStep h p) (roundStep_length h p)

/-- The compressor maps an 8-word state to an 8-word state. -/
theorem compress256_length (h block : List Nat) (hh : h.length = 8) :
    (compress256 h block).length = 8 := by
  unfold compress256
  rw [List.length_map, List.length_zip, foldl_roundStep_length _ _ hh, hh]
  simp

/-- Serialization emits four bytes per word. -/
theorem serializeWords_length : ∀ ws : List Nat, (serializeWords ws).length = 4 * ws.length
  | [] => rfl
  | w :: ws => by
      simp [serializeWords, be32, serializeWords_length ws]
      omega

/-- Block consumption keeps an 8-word running state. -/
theorem shaGo_fst_length (n : Nat) : ∀ h l, h.length = 8 → ((shaGo n h l).1).length = 8 := by
  induction n with
  | zero => intro _ _ hh; exact hh
  | succ n ih =>
      intro h l hh
      by_cases h64 : 64 ≤ l.length
      · simp only [shaGo, if_pos h64]
        exact ih _ _ (compress256_length _ _ hh)
      · simp only [shaGo, if_neg h64]
        exact hh

/-- Updates keep an 8-word running state. -/
theorem update_h_length (s : HASH_CTX) (d : List Nat) (hh : s.h.length = 8) :
    ((SHA256_update s d).h).length = 8 :=
  shaGo_fst_length _ _ _ hh

/-- The first finalization phase keeps an 8-word state. -/
theorem finalFirst_fst_length (s : HASH_CTX) (hh : s.h.length = 8) :
    ((finalFirst s).1).length = 8 := by
  unfold finalFirst
  by_cases h : 56 < (s.buffer ++ [128]).length
  · rw [if_pos h]
    exact compress256_length _ _ hh
  · rw [if_neg h]
    exact hh

/-- The finalized state holds eight words. -/
theorem finalWords_length (s : HASH_CTX) (hh : s.h.length = 8) :
    (finalWords s).length = 8 :=
  compress256_length _ _ (finalFirst_fst_length s hh)

/-- The word serialization `be32` written with divisions: most significant byte first. -/
theorem be32_div (w : Nat) :
    be32 w = [w / 16777216 % 256, w / 65536 % 256, w / 256 % 256, w % 256] := by
  simp [be32, Nat.shiftRight_eq_div_pow]

/-- Serialization is the big-endian byte expansion of each word in
order, most significant byte first. -/
theorem serializeWords_foldr : ∀ ws : List Nat, serializeWords ws =
    ws.foldr (fun w acc => w / 16777216 % 256 :: w / 65536 % 256 :: w / 256 % 256 :: w % 256 :: acc) []
  | [] => rfl
  | w :: ws => by
      simp only [serializeWords, List.foldr_cons, ← serializeWords_foldr ws, be32_div]
      rfl

/-- C5: The digest produced by finalization is exactly 32 bytes: the
eight final state words serialized most-significant-byte-first in state
order; the one-shot hash digest is likewise 32 bytes. -/
theorem sha256_digest_format (s : HASH_CTX) (hh : s.h.length = 8) (d : List Nat) :
    (SHA256_final s).length = 32 ∧
    SHA256_final s = (finalWords s).foldr
      (fun w acc => w / 16777216 % 256 :: w / 65536 % 256 :: w / 256 % 256 :: w % 256 :: acc) [] ∧
    (SHA256_hash d).length = 32 := by
  refine ⟨?_, serializeWords_foldr _, ?_⟩
  · unfold SHA256_final
    rw [serializeWords_length, finalWords_length s hh]
  · unfold SHA256_hash SHA256_final
    rw [serializeWords_length, finalWords_length _ (update_h_length SHA256_init d rfl)]

/-- Witness for C5 at the fresh context and the empty input. -/
theorem sha256_digest_format_witness :
    (SHA256_final SHA256_init).length = 32 ∧
    SHA256_final SHA256_init = (finalWords SHA256_init).foldr
      (fun w acc => w / 16777216 % 256 :: w / 65536 % 256 :: w / 256 % 256 :: w % 256 :: acc) [] ∧
    (SHA256_hash []).length = 32 :=
  sha256_digest_format SHA256_init (by decide) []
/-- C6: Terminal-state enforcement: on a finalized context every
subsequent update and every subsequent finalize fails with the misuse
error (the reject policy), so no transition leaves the finalized phase
and the context never resumes accepting data. -/
theorem sha256_terminal_state (c : HashCtxL) (d : List Nat) (hc : c.status = .finalized) :
    SHA256_updateChecked c d = .error .misuse ∧
    SHA256_finalChecked c = .error .misuse ∧
    (∀ c' : HashCtxL, SHA256_updateChecked c d = .ok c' → c'.status = .finalized) := by
  unfold SHA256_updateChecked SHA256_finalChecked
  rw [hc]
  exact ⟨rfl, rfl, fun c' hok => by cases hok⟩

/-- Witness for C6: a concretely finalized context rejects both
operations. -/
theorem sha256_terminal_state_witness :
    SHA256_updateChecked ⟨SHA256_init, .finalized⟩ [0] = .error .misuse ∧
    SHA256_finalChecked ⟨SHA256_init, .finalized⟩ = .error .misuse ∧
    (∀ c' : HashCtxL, SHA256_updateChecked ⟨SHA256_init, .finalized⟩ [0] = .ok c' →
      c'.status = .finalized) :=
  sha256_terminal_state ⟨SHA256_init, .finalized⟩ [0] rfl

/-- C10: Capacity error: an update whose data would push the total
input length beyond the `2 ^ 61`-byte capacity of the 64-bit bit-length
field fails with the defined capacity error instead of producing a
truncated length. -/
theorem sha256_capacity_error (c : HashCtxL) (d : List Nat)
    (hacc : c.status = .accumulating) (hcap : 2 ^ 61 < c.st.totalLen + d.length) :
    SHA256_updateChecked c d = .error .capacity := by
  unfold SHA256_updateChecked
  rw [hacc]
  simp only [if_pos hcap]

/-- Witness for C10: one more byte past a total of `2 ^ 61` is
rejected. -/
theorem sha256_capacity_error_witness :
    SHA256_updateChecked ⟨⟨shaH0, [], 2 ^ 61⟩, .accumulating⟩ [0] = .error .capacity :=
  sha256_capacity_error ⟨⟨shaH0, [], 2 ^ 61⟩, .accumulating⟩ [0] rfl (by norm_num)
/-- Unfold `wSpec` below 16: the big-endian word of the block. -/
theorem wSpec_lt (block : List Nat) {i : Nat} (h : i < 16) :
    wSpec block i = beWordAt block i := by
  rw [wSpec]
  rw [dif_pos h]

/-- Unfold `wSpec` from 16 on: the sigma recurrence. -/
theorem wSpec_ge (block : List Nat) {i : Nat} (h : 16 ≤ i) :
    wSpec block i = (smallS1 (wSpec block (i - 2)) + wSpec block (i - 7) +
      smallS0 (wSpec block (i - 15)) + wSpec block (i - 16)) % w32 := by
  rw [wSpec]
  rw [dif_neg (by omega)]

/-- Indexing a reversed list. -/
theorem getD_reverse (l : List Nat) (j : Nat) (h : j < l.length) :
    l.reverse.getD j 0 = l.getD (l.length - 1 - j) 0 := by
  rw [List.getD_eq_getElem _ _ (by simpa using h), List.getD_eq_getElem _ _ (by omega),
    List.getElem_reverse]

/-- Indexing past four cons cells. -/
theorem getD_cons4 (b0 b1 b2 b3 : Nat) (l : List Nat) (n : Nat) :
    (b0 :: b1 :: b2 :: b3 :: l).getD (n + 4) 0 = l.getD n 0 := by
  simp [show n + 4 = n + 1 + 1 + 1 + 1 from by omega, List.getD_cons_succ]

/-- The parser produces one word per four bytes. -/
theorem toBeWords_length : ∀ l : List Nat, (toBeWords l).length = l.length / 4
  | [] => rfl
  | [a] => by norm_num [show toBeWords [a] = [] from rfl]
  | [a, b] => by norm_num [show toBeWords [a, b] = [] from rfl]
  | [a, b, c] => by norm_num [show toBeWords [a, b, c] = [] from rfl]
  | b0 :: b1 :: b2 :: b3 :: rest => by
      have ih := toBeWords_length rest
      simp only [toBeWords, List.length_cons, ih]
      omega

/-- Each parsed word is the big-endian word at its offset. -/
theorem toBeWords_getD : ∀ (l : List Nat) (i : Nat), i < (toBeWords l).length →
    (toBeWords l).getD i 0 = beWordAt l i
  | [], i, hi => by simp [toBeWords] at hi
  | [_], i, hi => by simp [toBeWords] at hi
  | [_, _], i, hi => by simp [toBeWords] at hi
  | [_, _, _], i, hi => by simp [toBeWords] at hi
  | b0 :: b1 :: b2 :: b3 :: rest, 0, _ => by
      simp [toBeWords, beWordAt]
  | b0 :: b1 :: b2 :: b3 :: rest, i + 1, hi => by
      have hi' : i < (toBeWords rest).length := by
        simpa [toBeWords] using hi
      simp only [toBeWords, List.getD_cons_succ]
      rw [toBeWords_getD rest i hi']
      unfold beWordAt
      rw [show 4 * (i + 1) = 4 * i + 4 from by ring,
        show 4 * i + 4 + 1 = 4 * i + 1 + 4 from by ring,
        show 4 * i + 4 + 2 = 4 * i + 2 + 4 from by ring,
        show 4 * i + 4 + 3 = 4 * i + 3 + 4 from by ring,
        getD_cons4, getD_cons4, getD_cons4, getD_cons4]

/-- The reversed parse of a 64-byte block realizes the first 16
schedule words. -/
theorem revSched_base (block : List Nat) (hb : block.length = 64) :
    RevSched block 16 (toBeWords block).reverse := by
  have hlen : (toBeWords block).length = 16 := by
    rw [toBeWords_length, hb]
  constructor
  · simp [hlen]
  · intro i hi
    rw [show (16 : Nat) - 1 - i = 15 - i from rfl]
    rw [getD_reverse _ _ (by omega), hlen]
    rw [show (16 : Nat) - 1 - (15 - i) = i from by omega]
    rw [toBeWords_getD block i (by omega), wSpec_lt block hi]

/-- One extension step prepends the next schedule word. -/
theorem revSched_extend {block : List Nat} {m : Nat} {r : List Nat}
    (hm : 16 ≤ m) (hr : RevSched block m r) : RevSched block (m + 1) (extendW r) := by
  obtain ⟨hlen, hidx⟩ := hr
  constructor
  · simp [extendW, hlen]
  · intro i hi
    by_cases him : i = m
    · rw [him, show m + 1 - 1 - m = 0 from by omega]
      have h1 : r.getD 1 0 = wSpec block (m - 2) := by
        have h := hidx (m - 2) (by omega)
        rwa [show m - 1 - (m - 2) = 1 from by omega] at h
      have h6 : r.getD 6 0 = wSpec block (m - 7) := by
        have h := hidx (m - 7) (by omega)
        rwa [show m - 1 - (m - 7) = 6 from by omega] at h
      have h14 : r.getD 14 0 = wSpec block (m - 15) := by
        have h := hidx (m - 15) (by omega)
        rwa [show m - 1 - (m - 15) = 14 from by omega] at h
      have h15 : r.getD 15 0 = wSpec block (m - 16) := by
        have h := hidx (m - 16) (by omega)
        rwa [show m - 1 - (m - 16) = 15 from by omega] at h
      rw [wSpec_ge block hm, ← h1, ← h6, ← h14, ← h15]
      simp [extendW, List.getD_cons_zero]
    · rw [show m + 1 - 1 - i = (m - 1 - i) + 1 from by omega]
      simp only [extendW, List.getD_cons_succ]
      exact hidx i (by omega)

/-- Iterating the extension realizes as many further words. -/
theorem revSched_iterate (block : List Nat) :
    ∀ (n : Nat) (m : Nat) (r : List Nat), 16 ≤ m → RevSched block m r →
      RevSched block (m + n) (scheduleRev n r) := by
  intro n
  induction n with
  | zero => intro m r _ hr; simpa [scheduleRev] using hr
  | succ n ih =>
      intro m r hm hr
      have h := ih (m + 1) (extendW r) (by omega) (revSched_extend hm hr)
      rw [show m + (n + 1) = m + 1 + n from by omega]
      simpa [scheduleRev] using h

/-- The message schedule of a 64-byte block has 64 words, the `i`-th
being exactly the spec recurrence `wSpec`. -/
theorem messageSchedule_spec (block : List Nat) (hb : block.length = 64) :
    (messageSchedule block).length = 64 ∧
    ∀ i < 64, (messageSchedule block).getD i 0 = wSpec block i := by
  have h := revSched_iterate block 48 16 (toBeWords block).reverse (by omega)
    (revSched_base block hb)
  rw [show 16 + 48 = 64 from rfl] at h
  obtain ⟨hlen, hidx⟩ := h
  constructor
  · simp [messageSchedule, hlen]
  · intro i hi
    unfold messageSchedule
    rw [getD_reverse _ _ (by omega), hlen]
    exact hidx i hi
/-- There are exactly 64 round constants. -/
theorem Ksha_length : Ksha.length = 64 := rfl

/-- The zipped schedule/constant list of a 64-byte block has 64 pairs. -/
theorem zipWK_length (block : List Nat) (hb : block.length = 64) :
    ((messageSchedule block).zip Ksha).length = 64 := by
  rw [List.length_zip, (messageSchedule_spec block hb).1, Ksha_length]
  simp

/-- Folding the first `n` rounds over the zipped schedule equals the
indexed round recursion of the spec. -/
theorem foldl_roundStep_take (h block : List Nat) (hb : block.length = 64) :
    ∀ n, n ≤ 64 →
      List.foldl roundStep h (((messageSchedule block).zip Ksha).take n) =
        roundsSpec h block n := by
  intro n
  induction n with
  | zero => intro _; rfl
  | succ n ih =>
      intro hn
      have hW := messageSchedule_spec block hb
      have hzl := zipWK_length block hb
      have hn' : n < 64 := hn
      have hget : ((messageSchedule block).zip Ksha)[n]? =
          some ((messageSchedule block).getD n 0, Ksha.getD n 0) := by
        rw [List.getElem?_eq_getElem (by omega)]
        rw [List.getElem_zip]
        rw [List.getD_eq_getElem _ _ (by omega), List.getD_eq_getElem _ _ (by rw [Ksha_length]; omega)]
      rw [List.take_succ, hget]
      simp only [Option.toList_some, List.foldl_append, List.foldl_cons, List.foldl_nil]
      rw [ih (by omega), hW.2 n hn']
      rfl

/-- C3: The block compressor is the pure function of the spec: it
parses the block as 16 big-endian words, expands the schedule by the
sigma recurrence modulo `2 ^ 32`, runs the 64 rounds with the round
constants, and adds the original eight state words modulo `2 ^ 32`
(`compressSpec` is the verbatim transcription of those steps; all
additions wrap silently). -/
theorem compress256_matches_spec (h block : List Nat) (hb : block.length = 64) :
    compress256 h block = compressSpec h block := by
  unfold compress256 compressSpec
  have hzl := zipWK_length block hb
  have htake : ((messageSchedule block).zip Ksha).take 64 = (messageSchedule block).zip Ksha := by
    rw [← hzl]
    exact List.take_length _
  rw [← htake, foldl_roundStep_take h block hb 64 (by omega)]

/-- Witness for C3 at the all-zero 64-byte block. -/
theorem compress256_matches_spec_witness :
    compress256 shaH0 (List.replicate 64 0) = compressSpec shaH0 (List.replicate 64 0) :=
  compress256_matches_spec shaH0 (List.replicate 64 0) (by simp)
